import Mathlib

/-
  Verification development for the next-wordle-bot solver core.

  Shallow embedding of:
  - src/lib/logic/pattern-matching.ts   (computePattern, decodePattern)
  - src/lib/logic/word-filtering.ts     (buildConstraints, matchesConstraints, filterWords)
  - src/lib/logic/game-state.ts         (isGameWon, isGameLost, isGameOver)
  - src/hooks/useGameState.ts           (addGuess state transition)
  - src/workers/entropy-worker.ts       (entropy ranking: sort by entropy, top 20)
  - the worker variant with the single-candidate shortcut (performCalculation)

  Words are lists of characters; JavaScript `Map`s and `Set`s are modelled as
  association lists / lists with JS insertion-order semantics (`Map.set`
  replaces in place or appends; `Set.add` appends if new), since the
  program's checks quantify over all entries.
-/

abbrev Word := List Char

/-- Clue classification per letter, from src/lib/types (ClueType). -/
inductive ClueType where
  | correct
  | present
  | absent
deriving DecidableEq, Repr

/-- Position-specific letter clue (LetterClue in src/lib/types). -/
structure LetterClue where
  letter : Char
  position : Nat
  clue : ClueType
deriving DecidableEq, Repr

/-- A guess with its feedback (GuessResult in src/lib/types). -/
structure GuessResult where
  word : Word
  clues : List LetterClue
deriving DecidableEq, Repr

/-- Lookup in an association list, like JavaScript `Map.get` (first match). -/
def mapGet {κ α : Type} [DecidableEq κ] : List (κ × α) → κ → Option α
  | [], _ => none
  | (k', v) :: rest, k => if k' = k then some v else mapGet rest k

/-- JavaScript `Map.set`: replace the value at an existing key in place,
otherwise append a new entry. -/
def mapSet {κ α : Type} [DecidableEq κ] : List (κ × α) → κ → α → List (κ × α)
  | [], k, v => [(k, v)]
  | (k', v') :: rest, k, v =>
    if k' = k then (k, v) :: rest else (k', v') :: mapSet rest k v

/-- JavaScript `Set.add`: append if not already a member. -/
def setAdd {κ : Type} [DecidableEq κ] (s : List κ) (k : κ) : List κ :=
  if k ∈ s then s else s ++ [k]

/-- Accumulated constraints (WordConstraints in src/lib/types). -/
structure WordConstraints where
  correctPositions : List (Nat × Char)
  presentLetters : List Char
  absentLetters : List Char
  wrongPositions : List (Char × List Nat)
  minLetterCount : List (Char × Nat)
  exactLetterCounts : List (Char × Nat)
deriving DecidableEq, Repr

def emptyConstraints : WordConstraints :=
  { correctPositions := []
    presentLetters := []
    absentLetters := []
    wrongPositions := []
    minLetterCount := []
    exactLetterCounts := [] }

/-- addWrongPosition from src/lib/logic/word-filtering.ts (lines 162-171):
create the set for the letter if missing, then add the position. -/
def addWrongPosition (c : WordConstraints) (letter : Char) (position : Nat) :
    WordConstraints :=
  let ps := (mapGet c.wrongPositions letter).getD []
  { c with wrongPositions := mapSet c.wrongPositions letter (setAdd ps position) }

/-- State carried across the first pass over one guess's clues in
buildConstraints (word-filtering.ts lines 31-50): the constraints under
construction, `letterCountsInGuess` and `absentLettersInGuess`. -/
structure GuessScan where
  constraints : WordConstraints
  letterCounts : List (Char × Nat)
  absentInGuess : List Char

/-- One clue of the first pass of buildConstraints (lines 35-50). -/
def scanClue (st : GuessScan) (cl : LetterClue) : GuessScan :=
  if cl.clue = ClueType.correct ∨ cl.clue = ClueType.present then
    let counts :=
      mapSet st.letterCounts cl.letter ((mapGet st.letterCounts cl.letter).getD 0 + 1)
    let c :=
      if cl.clue = ClueType.correct then
        { st.constraints with
          correctPositions := mapSet st.constraints.correctPositions cl.position cl.letter }
      else
        addWrongPosition
          { st.constraints with
            presentLetters := setAdd st.constraints.presentLetters cl.letter }
          cl.letter cl.position
    { constraints := c, letterCounts := counts, absentInGuess := st.absentInGuess }
  else
    { st with absentInGuess := setAdd st.absentInGuess cl.letter }

/-- Loop body of the `maxMinCounts` update (lines 53-57): set the entry when
the per-guess count exceeds the current maximum. -/
def maxStep (acc : List (Char × Nat)) (e : Char × Nat) : List (Char × Nat) :=
  if e.2 > (mapGet acc e.1).getD 0 then mapSet acc e.1 e.2 else acc

/-- Update of the cross-guess `maxMinCounts` map (lines 52-58): keep the
maximum per-letter count seen in any single guess. -/
def updateMaxCounts (mm lc : List (Char × Nat)) : List (Char × Nat) :=
  lc.foldl maxStep mm

/-- Loop body of the absent-letter resolution (lines 61-70): a letter both
counted and absent in the same guess fixes an exact count; a purely absent
letter joins the global absent set. -/
def resolveOne (lc : List (Char × Nat)) (c : WordConstraints) (letter : Char) :
    WordConstraints :=
  match mapGet lc letter with
  | some count => { c with exactLetterCounts := mapSet c.exactLetterCounts letter count }
  | none => { c with absentLetters := setAdd c.absentLetters letter }

/-- Absent-letter resolution of buildConstraints (lines 60-70), folding the
loop body over `absentLettersInGuess`. -/
def resolveAbsent (c : WordConstraints) (lc : List (Char × Nat))
    (abs : List Char) : WordConstraints :=
  abs.foldl (resolveOne lc) c

/-- Processing of one guess inside buildConstraints (lines 30-71), threading
the constraints and the `maxMinCounts` map. -/
def processGuess (st : WordConstraints × List (Char × Nat)) (g : GuessResult) :
    WordConstraints × List (Char × Nat) :=
  let scan := g.clues.foldl scanClue
    { constraints := st.1, letterCounts := [], absentInGuess := [] }
  (resolveAbsent scan.constraints scan.letterCounts scan.absentInGuess,
   updateMaxCounts st.2 scan.letterCounts)

/-- buildConstraints from src/lib/logic/word-filtering.ts (lines 16-79):
fold over all guesses, then transfer `maxMinCounts` into `minLetterCount`. -/
def buildConstraints (guesses : List GuessResult) : WordConstraints :=
  let st := guesses.foldl processGuess (emptyConstraints, [])
  { st.1 with
    minLetterCount := st.2.foldl (fun acc e => mapSet acc e.1 e.2) st.1.minLetterCount }

/-- Letter-count map of a word (word-filtering.ts lines 133-136). -/
def countsOf (w : Word) : List (Char × Nat) :=
  w.foldl (fun m l => mapSet m l ((mapGet m l).getD 0 + 1)) []

/-- matchesConstraints from src/lib/logic/word-filtering.ts (lines 102-153):
the five sequential checks (conjunction, since each failure returns false). -/
def matchesConstraints (word : Word) (c : WordConstraints) : Bool :=
  c.correctPositions.all (fun e => word[e.1]? == some e.2) &&
  c.presentLetters.all (fun l => word.contains l) &&
  c.absentLetters.all (fun l => !word.contains l) &&
  c.wrongPositions.all (fun e => e.2.all (fun p => !(word[p]? == some e.1))) &&
  (let wc := countsOf word
   c.minLetterCount.all (fun e => (mapGet wc e.1).getD 0 ≥ e.2) &&
   c.exactLetterCounts.all (fun e => (mapGet wc e.1).getD 0 == e.2))

/-- filterWords from src/lib/logic/word-filtering.ts (lines 88-93). -/
def filterWords (words : List Word) (c : WordConstraints) : List Word :=
  words.filter (fun w => matchesConstraints w c)

/-- Check 5a of matchesConstraints (min counts, lines 139-142) restricted to
the entry of a single letter: the word is not rejected by the minLetterCount
check for that letter. -/
def minCheckFor (c : WordConstraints) (w : Word) (L : Char) : Bool :=
  match mapGet c.minLetterCount L with
  | none => true
  | some m => (mapGet (countsOf w) L).getD 0 ≥ m

/-- Check 3 of matchesConstraints (absent letters, lines 121-123) restricted
to a single letter: the word is not rejected by the absentLetters check for
that letter. -/
def absentCheckFor (c : WordConstraints) (w : Word) (L : Char) : Bool :=
  if L ∈ c.absentLetters then !w.contains L else true

/-- Consumption of the first remaining occurrence of a letter from the
scratch copy of the answer (`actualLetters.indexOf` followed by marking the
slot used, pattern-matching.ts lines 54-58). `none` when the letter is not
among the remaining slots. -/
def consume : List (Option Char) → Char → Option (List (Option Char))
  | [], _ => none
  | x :: rest, c =>
    if x = some c then some (none :: rest)
    else
      match consume rest c with
      | some rest' => some (x :: rest')
      | none => none

/-- Second pass of computePattern (lines 51-61): positions already marked
correct keep digit 2; otherwise consume a remaining occurrence for digit 1,
or fall through to digit 0. A `none` guess slot (out-of-range access) never
matches a remaining letter. -/
def secondPass : List (Option Char × Nat) → List (Option Char) → List Nat
  | [], _ => []
  | (oc, d) :: rest, scratch =>
    if d = 2 then 2 :: secondPass rest scratch
    else
      match oc with
      | none => 0 :: secondPass rest scratch
      | some ch =>
        match consume scratch ch with
        | some scratch' => 1 :: secondPass rest scratch'
        | none => 0 :: secondPass rest scratch

/-- Base-3 encoding loop of computePattern (lines 63-71): running sum with a
multiplier that is tripled at each position. -/
def encodeDigits (ds : List Nat) : Nat :=
  (ds.foldl (fun (st : Nat × Nat) d => (st.1 + d * st.2, st.2 * 3)) (0, 1)).1

/-- Body of computePattern after validation (pattern-matching.ts lines 36-71),
also the worker's duplicated computePattern (src/workers/entropy-worker.ts
lines 20-55, which has no length validation). First pass marks greens and
blanks their slots in the scratch answer; second pass consumes remaining
letters for yellows; the digits are then base-3 encoded. -/
def patternCore (guess actual : Word) : Nat :=
  let g := guess.map Char.toLower
  let a := actual.map Char.toLower
  let firstPass := (List.range 5).map (fun i => if g[i]? = a[i]? then 2 else 0)
  let scratch := a.enum.map (fun e => if g[e.1]? = some e.2 then none else some e.2)
  encodeDigits (secondPass (((List.range 5).map (fun i => g[i]?)).zip firstPass) scratch)

/-- computePattern from src/lib/logic/pattern-matching.ts (lines 31-72):
validation error unless both strings have exactly 5 characters, then the
two-pass pattern computation. -/
def computePattern (guess actual : Word) : Except String Nat :=
  if guess.length ≠ 5 ∨ actual.length ≠ 5 then
    Except.error "Both guess and actual must be 5 letters"
  else
    Except.ok (patternCore guess actual)

/-- decodePattern from src/lib/logic/pattern-matching.ts (lines 84-94):
five iterations of `remaining % 3` / `remaining / 3`. -/
def decodeAux : Nat → Nat → List Nat
  | 0, _ => []
  | n + 1, r => r % 3 :: decodeAux n (r / 3)

def decodePattern (pattern : Nat) : List Nat :=
  decodeAux 5 pattern

/-- MAX_GUESSES from src/lib/constants.ts. -/
def MAX_GUESSES : Nat := 6

/-- GameState from src/lib/types. -/
structure GameState where
  guesses : List GuessResult
  remainingWords : List Word
  currentGuess : Word
  isComplete : Bool
  solution : Option Word
deriving DecidableEq, Repr

/-- isGameWon from src/lib/logic/game-state.ts (lines 33-38): the last
guess's clues are all correct. -/
def isGameWon (guesses : List GuessResult) : Bool :=
  match guesses.getLast? with
  | none => false
  | some last => last.clues.all (fun c => c.clue == ClueType.correct)

/-- isGameLost from src/lib/logic/game-state.ts (lines 46-48). -/
def isGameLost (guesses : List GuessResult) : Bool :=
  guesses.length ≥ MAX_GUESSES && !isGameWon guesses

/-- isGameOver from src/lib/logic/game-state.ts (lines 56-58). -/
def isGameOver (guesses : List GuessResult) : Bool :=
  isGameWon guesses || isGameLost guesses

/-- addGuess state transition from src/hooks/useGameState.ts (lines 63-108):
no-op on a complete game; otherwise append the guess, rebuild constraints,
filter the curated pool, fall back to the full dictionary when that filter
is empty, and derive completion and solution. -/
def addGuess (possibleAnswers allValidWords : List Word) (prev : GameState)
    (guess : GuessResult) : GameState :=
  if prev.isComplete then prev
  else
    let newGuesses := prev.guesses ++ [guess]
    let constraints := buildConstraints newGuesses
    let strict := filterWords possibleAnswers constraints
    let remaining :=
      if strict.isEmpty then filterWords allValidWords constraints else strict
    { guesses := newGuesses
      remainingWords := remaining
      currentGuess := []
      isComplete := isGameOver newGuesses || remaining.isEmpty
      solution := if remaining.length = 1 then remaining[0]? else prev.solution }

/-- WordSuggestion from src/lib/types; `remainingWords` is the rounded
expected remaining-candidate count. -/
structure WordSuggestion where
  word : Word
  entropy : ℝ
  remainingWords : ℤ

/-- Pattern-to-count buckets over the remaining pool (entropy-worker.ts
lines 65-71), using the worker's computePattern. -/
def patternCountsOf (guess : Word) (remainingWords : List Word) : List (Nat × Nat) :=
  remainingWords.foldl
    (fun m actual =>
      let p := patternCore guess actual
      mapSet m p ((mapGet m p).getD 0 + 1))
    []

/-- calculateEntropy from src/workers/entropy-worker.ts (lines 61-79):
Shannon entropy of the pattern distribution, 0 when at most one word
remains. -/
noncomputable def calculateEntropy (guess : Word) (remainingWords : List Word) : ℝ :=
  let n := remainingWords.length
  if n ≤ 1 then 0
  else
    (patternCountsOf guess remainingWords).foldl
      (fun e c => e + ((c.2 : ℝ) / n) * Real.logb 2 (1 / ((c.2 : ℝ) / n))) 0

/-- calculateExpectedRemaining from src/workers/entropy-worker.ts
(lines 84-105). -/
noncomputable def calculateExpectedRemaining (guess : Word)
    (remainingWords : List Word) : ℝ :=
  let n := remainingWords.length
  if n ≤ 1 then 0
  else
    (patternCountsOf guess remainingWords).foldl
      (fun e c => e + ((c.2 : ℝ) / n) * (c.2 : ℝ)) 0

/-- JavaScript `Math.round` on a non-negative value: floor of x + 1/2. -/
noncomputable def jsRound (x : ℝ) : ℤ := ⌊x + 1 / 2⌋

/-- Suggestion built for one candidate word (entropy-worker.ts
lines 120-128). -/
noncomputable def mkSuggestion (remainingWords : List Word) (word : Word) :
    WordSuggestion :=
  { word := word
    entropy := calculateEntropy word remainingWords
    remainingWords := jsRound (calculateExpectedRemaining word remainingWords) }

/-- Comparator `(a, b) => b.entropy - a.entropy` of the worker's sort:
`a` may precede `b` exactly when `a.entropy ≥ b.entropy`. -/
noncomputable def suggLe (a b : WordSuggestion) : Bool :=
  decide (b.entropy ≤ a.entropy)

/-- Result list of the CALCULATE_ENTROPY handler of
src/workers/entropy-worker.ts (onmessage, lines 110-155): one suggestion per
candidate, sorted by entropy descending, truncated to the top 20. -/
noncomputable def entropyWorkerSuggestions (candidateWords remainingWords : List Word) :
    List WordSuggestion :=
  (((candidateWords.map (mkSuggestion remainingWords)).mergeSort suggLe).take 20)

/-- performCalculation from the worker variant with the single-candidate
shortcut (CALCULATE_ENTROPY path): a pool of exactly one word returns that
word alone with entropy 0 and remainingWords 1, an empty pool returns no
suggestions, otherwise the full computation runs. -/
noncomputable def performCalculation (candidateWords remainingWords : List Word) :
    List WordSuggestion :=
  if remainingWords.length = 1 then
    [{ word := remainingWords.headI, entropy := 0, remainingWords := 1 }]
  else if remainingWords.length = 0 then []
  else
    (((candidateWords.map (mkSuggestion remainingWords)).mergeSort suggLe).take 20)

/-- Keys of an association list are pairwise distinct. -/
def NodupKeys {κ α : Type} (m : List (κ × α)) : Prop :=
  (m.map Prod.fst).Nodup

/-- Lookup-with-default in the letter-count maps. -/
def lookD {κ : Type} [DecidableEq κ] (m : List (κ × Nat)) (k : κ) : Nat :=
  (mapGet m k).getD 0

/-- Membership of a position among the recorded wrong positions of a
letter. -/
def wrongMem (c : WordConstraints) (L : Char) (p : Nat) : Prop :=
  p ∈ (mapGet c.wrongPositions L).getD []

/-- Number of correct-or-present clues for a letter within a clue list. -/
def cluesCount (clues : List LetterClue) (L : Char) : Nat :=
  clues.countP
    (fun cl => cl.letter == L && (cl.clue == ClueType.correct || cl.clue == ClueType.present))

/-- Spec-side description of the cross-guess minimum-count rule (spec §4.2):
the maximum, over all guesses, of the per-guess correct-or-present count of
the letter. -/
def specMinLetterCount (gs : List GuessResult) (L : Char) : Nat :=
  (gs.map (fun g => cluesCount g.clues L)).foldr max 0

/-- One constraint set refines another when every piece of knowledge recorded
in the old one is still enforced (at least as strongly) by the new one. -/
def Refines (old new : WordConstraints) : Prop :=
  (∀ e ∈ old.correctPositions, mapGet new.correctPositions e.1 = some e.2) ∧
  (∀ l ∈ old.presentLetters, l ∈ new.presentLetters) ∧
  (∀ l ∈ old.absentLetters, l ∈ new.absentLetters) ∧
  (∀ e ∈ old.wrongPositions, ∀ p ∈ e.2,
    ∃ ps, mapGet new.wrongPositions e.1 = some ps ∧ p ∈ ps) ∧
  (∀ e ∈ old.minLetterCount, ∃ m, mapGet new.minLetterCount e.1 = some m ∧ e.2 ≤ m) ∧
  (∀ e ∈ old.exactLetterCounts, mapGet new.exactLetterCounts e.1 = some e.2)

/-
  Concrete instances used by witnesses and counterexamples.
-/

/-- The word "crate". -/
def wCrate : Word := ['c', 'r', 'a', 't', 'e']

/-- The word "muggy". -/
def wMuggy : Word := ['m', 'u', 'g', 'g', 'y']

/-- Guessing "crate" with every letter marked absent. -/
def gCrateAbsent : GuessResult :=
  { word := wCrate
    clues := [⟨'c', 0, ClueType.absent⟩, ⟨'r', 1, ClueType.absent⟩,
              ⟨'a', 2, ClueType.absent⟩, ⟨'t', 3, ClueType.absent⟩,
              ⟨'e', 4, ClueType.absent⟩] }

/-- The fresh initial state over the one-word curated pool ["crate"]
(createInitialGameState from src/lib/logic/game-state.ts). -/
def initCrateState : GameState :=
  { guesses := [], remainingWords := [wCrate], currentGuess := []
    isComplete := false, solution := none }

/-- A terminal (complete) state. -/
def doneState : GameState :=
  { guesses := [], remainingWords := [], currentGuess := []
    isComplete := true, solution := none }

/-- Guess recording "a" purely absent (with filler letter z): word "azzzz",
all clues absent. -/
def gAPureAbsent : GuessResult :=
  { word := ['a', 'z', 'z', 'z', 'z']
    clues := [⟨'a', 0, ClueType.absent⟩, ⟨'z', 1, ClueType.absent⟩,
              ⟨'z', 2, ClueType.absent⟩, ⟨'z', 3, ClueType.absent⟩,
              ⟨'z', 4, ClueType.absent⟩] }

/-- Guess "aazzz" with a green a at 0 and a gray a at 1: fixes the exact
count of a at 1. -/
def gAExactOne : GuessResult :=
  { word := ['a', 'a', 'z', 'z', 'z']
    clues := [⟨'a', 0, ClueType.correct⟩, ⟨'a', 1, ClueType.absent⟩,
              ⟨'z', 2, ClueType.absent⟩, ⟨'z', 3, ClueType.absent⟩,
              ⟨'z', 4, ClueType.absent⟩] }

/-- Guess "azzzz" with a green a at position 0. -/
def gAGreen0 : GuessResult :=
  { word := ['a', 'z', 'z', 'z', 'z']
    clues := [⟨'a', 0, ClueType.correct⟩, ⟨'z', 1, ClueType.absent⟩,
              ⟨'z', 2, ClueType.absent⟩, ⟨'z', 3, ClueType.absent⟩,
              ⟨'z', 4, ClueType.absent⟩] }

/-- Guess "bzzzz" with a green b at position 0 (reassigns position 0). -/
def gBGreen0 : GuessResult :=
  { word := ['b', 'z', 'z', 'z', 'z']
    clues := [⟨'b', 0, ClueType.correct⟩, ⟨'z', 1, ClueType.absent⟩,
              ⟨'z', 2, ClueType.absent⟩, ⟨'z', 3, ClueType.absent⟩,
              ⟨'z', 4, ClueType.absent⟩] }

/-- Guess "aaazz" with green a at 0 and 1 and a gray a at 2: fixes the exact
count of a at 2 (overwriting an earlier exact count of 1). -/
def gAExactTwo : GuessResult :=
  { word := ['a', 'a', 'a', 'z', 'z']
    clues := [⟨'a', 0, ClueType.correct⟩, ⟨'a', 1, ClueType.correct⟩,
              ⟨'a', 2, ClueType.absent⟩, ⟨'z', 3, ClueType.absent⟩,
              ⟨'z', 4, ClueType.absent⟩] }

/-- The guess "sassy" scored against answer "lasso": one gray s after a
green a and two green s's, fixing the exact count of s at 2. -/
def gSassyLasso : GuessResult :=
  { word := ['s', 'a', 's', 's', 'y']
    clues := [⟨'s', 0, ClueType.absent⟩, ⟨'a', 1, ClueType.correct⟩,
              ⟨'s', 2, ClueType.correct⟩, ⟨'s', 3, ClueType.correct⟩,
              ⟨'y', 4, ClueType.absent⟩] }

/-
  Theorems.
-/

set_option maxRecDepth 4000

/-- C9: for every pattern p in [0, 242], re-encoding the 5 ternary digits of
decodePattern p in base 3, least-significant first, yields p again. -/
theorem encodeDigits_decodePattern (p : Nat) (hp : p < 243) :
    encodeDigits (decodePattern p) = p := by
  revert p hp
  decide

theorem encodeDigits_decodePattern_witness :
    171 < 243 ∧ encodeDigits (decodePattern 171) = 171 :=
  ⟨by decide, encodeDigits_decodePattern 171 (by decide)⟩

/-- C10: buildConstraints on the empty history yields the empty constraint
set, and filtering any word list with it returns the list unchanged. -/
theorem filterWords_empty_history :
    buildConstraints [] = emptyConstraints ∧
      ∀ ws : List Word, filterWords ws (buildConstraints []) = ws := by
  refine ⟨rfl, fun ws => ?_⟩
  simp only [filterWords]
  exact List.filter_eq_self.mpr (fun w _ => rfl)

/-- C8: computePattern reports the input-validation error exactly when one of
the two words is not 5 characters long, and returns a pattern exactly when
both are. -/
theorem computePattern_error_iff (g a : Word) :
    (computePattern g a = Except.error "Both guess and actual must be 5 letters"
        ↔ ¬(g.length = 5 ∧ a.length = 5)) ∧
      ((∃ p, computePattern g a = Except.ok p) ↔ (g.length = 5 ∧ a.length = 5)) := by
  by_cases h : g.length ≠ 5 ∨ a.length ≠ 5
  · have h' : ¬(g.length = 5 ∧ a.length = 5) := by tauto
    simp [computePattern, h, h']
  · have h' : g.length = 5 ∧ a.length = 5 := by tauto
    simp [computePattern, h, h']

/-- C5: addGuess on a completed game is a no-op returning the prior state. -/
theorem addGuess_terminal_noop (pa av : List Word) (prev : GameState)
    (g : GuessResult) (h : prev.isComplete = true) :
    addGuess pa av prev g = prev := by
  simp [addGuess, h]

theorem addGuess_terminal_noop_witness :
    doneState.isComplete = true ∧
      addGuess [] [] doneState gCrateAbsent = doneState :=
  ⟨rfl, addGuess_terminal_noop [] [] doneState gCrateAbsent rfl⟩

/-- C3: with a remaining pool of exactly one word, performCalculation returns
exactly one suggestion: that word, entropy 0, remainingWords 1. -/
theorem performCalculation_singleton (cands : List Word) (w : Word) :
    performCalculation cands [w] =
      [{ word := w, entropy := 0, remainingWords := 1 }] := by
  simp [performCalculation]

/-- C4: when a guess filters the curated pool to empty, addGuess re-filters
the full dictionary with the same constraints; if that yields candidates and
the guess is non-winning with fewer than 6 total guesses, the new state keeps
a non-empty remainingWords list and stays non-terminal. -/
theorem addGuess_fallback (pa av : List Word) (prev : GameState) (g : GuessResult)
    (hnc : prev.isComplete = false)
    (hstrict : filterWords pa (buildConstraints (prev.guesses ++ [g])) = [])
    (hbroad : filterWords av (buildConstraints (prev.guesses ++ [g])) ≠ [])
    (hwin : g.clues.all (fun c => c.clue == ClueType.correct) = false)
    (hlen : prev.guesses.length + 1 < 6) :
    (addGuess pa av prev g).remainingWords
        = filterWords av (buildConstraints (prev.guesses ++ [g])) ∧
      (addGuess pa av prev g).remainingWords ≠ [] ∧
      (addGuess pa av prev g).isComplete = false := by
  have hwon : isGameWon (prev.guesses ++ [g]) = false := by
    simp [isGameWon, List.getLast?_concat, hwin]
  have hlost : isGameLost (prev.guesses ++ [g]) = false := by
    simp only [isGameLost, List.length_append, List.length_singleton]
    have : ¬ prev.guesses.length + 1 ≥ MAX_GUESSES := by
      unfold MAX_GUESSES; omega
    simp [this]
  have hover : isGameOver (prev.guesses ++ [g]) = false := by
    simp [isGameOver, hwon, hlost]
  have hne : (filterWords av (buildConstraints (prev.guesses ++ [g]))).isEmpty = false := by
    simpa [List.isEmpty_iff] using hbroad
  refine ⟨?_, ?_, ?_⟩ <;> simp [addGuess, hnc, hstrict, hover, hne, hbroad]

theorem addGuess_fallback_witness :
    initCrateState.isComplete = false ∧
      filterWords [wCrate]
        (buildConstraints (initCrateState.guesses ++ [gCrateAbsent])) = [] ∧
      filterWords [wCrate, wMuggy]
        (buildConstraints (initCrateState.guesses ++ [gCrateAbsent])) ≠ [] ∧
      gCrateAbsent.clues.all (fun c => c.clue == ClueType.correct) = false ∧
      initCrateState.guesses.length + 1 < 6 ∧
      ((addGuess [wCrate] [wCrate, wMuggy] initCrateState gCrateAbsent).remainingWords
          = filterWords [wCrate, wMuggy]
              (buildConstraints (initCrateState.guesses ++ [gCrateAbsent])) ∧
        (addGuess [wCrate] [wCrate, wMuggy] initCrateState gCrateAbsent).remainingWords ≠ [] ∧
        (addGuess [wCrate] [wCrate, wMuggy] initCrateState gCrateAbsent).isComplete = false) :=
  ⟨rfl, by decide, by decide, by decide, by decide,
    addGuess_fallback [wCrate] [wCrate, wMuggy] initCrateState gCrateAbsent
      rfl (by decide) (by decide) (by decide) (by decide)⟩

/-- Transitivity of the worker's sort comparator. -/
theorem suggLe_trans (a b c : WordSuggestion) :
    suggLe a b → suggLe b c → suggLe a c := by
  intro hab hbc
  simp only [suggLe, decide_eq_true_eq] at *
  exact le_trans hbc hab

/-- Totality of the worker's sort comparator. -/
theorem suggLe_total (a b : WordSuggestion) : suggLe a b || suggLe b a := by
  rcases le_total a.entropy b.entropy with h | h <;> simp [suggLe, h]

/-- C7: the suggestion list of the worker's CALCULATE_ENTROPY handler is
sorted by entropy in descending order and contains at most 20 entries. -/
theorem entropyWorkerSuggestions_sorted_top20 (cands pool : List Word) :
    List.Sorted (fun a b : WordSuggestion => b.entropy ≤ a.entropy)
        (entropyWorkerSuggestions cands pool) ∧
      (entropyWorkerSuggestions cands pool).length ≤ 20 := by
  constructor
  · have hs := @List.sorted_mergeSort _ suggLe
      (fun a b c => suggLe_trans a b c) (fun a b => suggLe_total a b)
      (cands.map (mkSuggestion pool))
    have hs' : ((cands.map (mkSuggestion pool)).mergeSort suggLe).Sorted
        (fun a b => b.entropy ≤ a.entropy) := by
      refine hs.imp ?_
      intro a b h
      simpa [suggLe, decide_eq_true_eq] using h
    exact hs'.sublist (List.take_sublist _ _)
  · simp only [entropyWorkerSuggestions, List.length_take]
    exact min_le_left _ _

/-
  Association-list lemmas (JavaScript Map/Set semantics).
-/

theorem mapGet_mapSet_self {κ α : Type} [DecidableEq κ]
    (m : List (κ × α)) (k : κ) (v : α) : mapGet (mapSet m k v) k = some v := by
  induction m with
  | nil => simp [mapSet, mapGet]
  | cons e rest ih =>
    by_cases h : e.1 = k
    · simp [mapSet, mapGet, h]
    · simp [mapSet, mapGet, h, ih]

theorem mapGet_mapSet_ne {κ α : Type} [DecidableEq κ]
    (m : List (κ × α)) (k k' : κ) (v : α) (h : k' ≠ k) :
    mapGet (mapSet m k v) k' = mapGet m k' := by
  have h' : k ≠ k' := Ne.symm h
  induction m with
  | nil => simp [mapSet, mapGet, h']
  | cons e rest ih =>
    by_cases he : e.1 = k
    · subst he
      simp only [mapSet, if_pos rfl]
      simp [mapGet, h']
    · simp only [mapSet, if_neg he]
      by_cases he' : e.1 = k'
      · simp [mapGet, he']
      · simp [mapGet, he', ih]

theorem mem_of_mapGet_eq_some {κ α : Type} [DecidableEq κ]
    {m : List (κ × α)} {k : κ} {v : α} (h : mapGet m k = some v) : (k, v) ∈ m := by
  induction m with
  | nil => simp [mapGet] at h
  | cons e rest ih =>
    by_cases he : e.1 = k
    · simp only [mapGet, if_pos he] at h
      have : e = (k, v) := by
        cases e
        simp_all
      exact this ▸ List.mem_cons_self _ _
    · simp only [mapGet, if_neg he] at h
      exact List.mem_cons_of_mem _ (ih h)

theorem mapGet_eq_none_of_not_mem_keys {κ α : Type} [DecidableEq κ]
    {m : List (κ × α)} {k : κ} (h : k ∉ m.map Prod.fst) : mapGet m k = none := by
  induction m with
  | nil => rfl
  | cons e rest ih =>
    simp only [List.map_cons, List.mem_cons, not_or] at h
    have he : e.1 ≠ k := Ne.symm h.1
    simp [mapGet, he, ih h.2]

theorem mapGet_eq_some_of_mem {κ α : Type} [DecidableEq κ]
    {m : List (κ × α)} {k : κ} {v : α} (hn : NodupKeys m) (h : (k, v) ∈ m) :
    mapGet m k = some v := by
  induction m with
  | nil => simp at h
  | cons e rest ih =>
    simp only [NodupKeys, List.map_cons, List.nodup_cons] at hn
    rcases List.mem_cons.mp h with h | h
    · subst h
      simp [mapGet]
    · have hk : e.1 ≠ k := by
        intro he
        exact hn.1 (he ▸ List.mem_map_of_mem Prod.fst h)
      simp [mapGet, hk, ih hn.2 h]

theorem keys_mapSet_or {κ α : Type} [DecidableEq κ]
    (m : List (κ × α)) (k : κ) (v : α) :
    (mapSet m k v).map Prod.fst = m.map Prod.fst ++ [k] ∨
      (mapSet m k v).map Prod.fst = m.map Prod.fst := by
  induction m with
  | nil => simp [mapSet]
  | cons e rest ih =>
    by_cases he : e.1 = k
    · right
      simp [mapSet, he]
    · rcases ih with h | h <;> [left; right] <;> simp [mapSet, he, h]

theorem nodupKeys_mapSet {κ α : Type} [DecidableEq κ]
    {m : List (κ × α)} (k : κ) (v : α) (hn : NodupKeys m) :
    NodupKeys (mapSet m k v) := by
  induction m with
  | nil => simp [mapSet, NodupKeys]
  | cons e rest ih =>
    simp only [NodupKeys, List.map_cons, List.nodup_cons] at hn
    by_cases he : e.1 = k
    · subst he
      simpa [mapSet, NodupKeys] using hn
    · have hrest := ih hn.2
      simp only [NodupKeys, mapSet, if_neg he, List.map_cons, List.nodup_cons]
      refine ⟨?_, hrest⟩
      rcases keys_mapSet_or rest k v with h | h <;> rw [h]
      · simp only [List.mem_append, List.mem_singleton, not_or]
        exact ⟨hn.1, he⟩
      · exact hn.1

theorem mapGet_isSome_mapSet {κ α : Type} [DecidableEq κ]
    (m : List (κ × α)) (k k' : κ) (v : α) (h : (mapGet m k').isSome) :
    (mapGet (mapSet m k v) k').isSome := by
  by_cases hk : k' = k
  · subst hk
    simp [mapGet_mapSet_self]
  · rwa [mapGet_mapSet_ne _ _ _ _ hk]

theorem mem_setAdd_iff {κ : Type} [DecidableEq κ] (s : List κ) (k l : κ) :
    l ∈ setAdd s k ↔ l ∈ s ∨ l = k := by
  by_cases h : k ∈ s
  · simp only [setAdd, if_pos h]
    constructor
    · exact Or.inl
    · rintro (hl | rfl) <;> [exact hl; exact h]
  · simp [setAdd, if_neg h]

theorem mem_setAdd_of_mem {κ : Type} [DecidableEq κ] {s : List κ} {l : κ} (k : κ)
    (h : l ∈ s) : l ∈ setAdd s k :=
  (mem_setAdd_iff s k l).mpr (Or.inl h)

theorem lookD_mapSet_self {κ : Type} [DecidableEq κ] (m : List (κ × Nat)) (k : κ)
    (v : Nat) : lookD (mapSet m k v) k = v := by
  simp [lookD, mapGet_mapSet_self]

theorem lookD_mapSet_ne {κ : Type} [DecidableEq κ] (m : List (κ × Nat)) (k k' : κ)
    (v : Nat) (h : k' ≠ k) : lookD (mapSet m k v) k' = lookD m k' := by
  simp [lookD, mapGet_mapSet_ne _ _ _ _ h]

/-- Lookup in the letter-count map of a word counts its occurrences. -/
theorem lookD_countsOf (w : Word) (c : Char) : lookD (countsOf w) c = w.count c := by
  suffices h : ∀ (w : Word) (m : List (Char × Nat)) (c : Char),
      lookD (w.foldl (fun m l => mapSet m l ((mapGet m l).getD 0 + 1)) m) c =
        lookD m c + w.count c by
    have := h w [] c
    rw [countsOf, this]
    simp [lookD, mapGet]
  intro w
  induction w with
  | nil => simp
  | cons l rest ih =>
    intro m c
    rw [List.foldl_cons, ih, List.count_cons]
    by_cases hc : l = c
    · subst hc
      rw [lookD_mapSet_self]
      simp only [lookD]
      simp
      omega
    · rw [lookD_mapSet_ne _ _ _ _ (Ne.symm hc)]
      have hc' : c ≠ l := Ne.symm hc
      simp [hc, hc']

theorem mem_mapSet {κ α : Type} [DecidableEq κ]
    {m : List (κ × α)} {k : κ} {v : α} {e : κ × α} (h : e ∈ mapSet m k v) :
    e ∈ m ∨ e = (k, v) := by
  induction m with
  | nil => simpa [mapSet] using h
  | cons e' rest ih =>
    by_cases he : e'.1 = k
    · simp only [mapSet, if_pos he, List.mem_cons] at h
      rcases h with h | h
      · exact Or.inr h
      · exact Or.inl (List.mem_cons_of_mem _ h)
    · simp only [mapSet, if_neg he, List.mem_cons] at h
      rcases h with h | h
      · exact Or.inl (h ▸ List.mem_cons_self _ _)
      · rcases ih h with h' | h'
        · exact Or.inl (List.mem_cons_of_mem _ h')
        · exact Or.inr h'

/-- A single clue of the first pass never touches the absent, exact or min
components of the constraints. -/
theorem scanClue_untouched (st : GuessScan) (cl : LetterClue) :
    (scanClue st cl).constraints.absentLetters = st.constraints.absentLetters ∧
      (scanClue st cl).constraints.exactLetterCounts
        = st.constraints.exactLetterCounts ∧
      (scanClue st cl).constraints.minLetterCount
        = st.constraints.minLetterCount := by
  rcases hcl : cl.clue <;> simp [scanClue, addWrongPosition, hcl]

/-- The first pass over a guess's clues never touches the absent, exact or
min components of the constraints. -/
theorem scanFold_preserves (clues : List LetterClue) (st : GuessScan) :
    (clues.foldl scanClue st).constraints.absentLetters
        = st.constraints.absentLetters ∧
      (clues.foldl scanClue st).constraints.exactLetterCounts
        = st.constraints.exactLetterCounts ∧
      (clues.foldl scanClue st).constraints.minLetterCount
        = st.constraints.minLetterCount := by
  induction clues generalizing st with
  | nil => exact ⟨rfl, rfl, rfl⟩
  | cons cl rest ih =>
    rw [List.foldl_cons]
    obtain ⟨h1, h2, h3⟩ := ih (scanClue st cl)
    obtain ⟨g1, g2, g3⟩ := scanClue_untouched st cl
    exact ⟨h1.trans g1, h2.trans g2, h3.trans g3⟩

/-- A single clue of the first pass only grows the present-letter set. -/
theorem scanClue_present_mono (st : GuessScan) (cl : LetterClue) {l : Char}
    (h : l ∈ st.constraints.presentLetters) :
    l ∈ (scanClue st cl).constraints.presentLetters := by
  rcases hcl : cl.clue <;> simp [scanClue, addWrongPosition, hcl]
  · exact h
  · exact mem_setAdd_of_mem _ h
  · exact h

/-- The first pass only grows the present-letter set. -/
theorem scanFold_present_mono (clues : List LetterClue) (st : GuessScan) {l : Char}
    (h : l ∈ st.constraints.presentLetters) :
    l ∈ (clues.foldl scanClue st).constraints.presentLetters := by
  induction clues generalizing st with
  | nil => exact h
  | cons cl rest ih =>
    rw [List.foldl_cons]
    exact ih (scanClue st cl) (scanClue_present_mono st cl h)

/-- A single clue of the first pass only grows the recorded wrong
positions. -/
theorem scanClue_wrongMem_mono (st : GuessScan) (cl : LetterClue)
    {L : Char} {p : Nat} (h : wrongMem st.constraints L p) :
    wrongMem (scanClue st cl).constraints L p := by
  rcases hcl : cl.clue <;> simp [scanClue, addWrongPosition, hcl]
  · exact h
  · by_cases hL : L = cl.letter
    · subst hL
      unfold wrongMem at *
      simp only [mapGet_mapSet_self, Option.getD_some]
      exact mem_setAdd_of_mem _ h
    · unfold wrongMem at *
      simpa [mapGet_mapSet_ne _ _ _ _ hL] using h
  · exact h

/-- The first pass only grows the recorded wrong positions. -/
theorem scanFold_wrongMem_mono (clues : List LetterClue) (st : GuessScan)
    {L : Char} {p : Nat} (h : wrongMem st.constraints L p) :
    wrongMem (clues.foldl scanClue st).constraints L p := by
  induction clues generalizing st with
  | nil => exact h
  | cons cl rest ih =>
    rw [List.foldl_cons]
    exact ih (scanClue st cl) (scanClue_wrongMem_mono st cl h)

/-- A single clue of the first pass preserves distinctness of the keys of
the wrong-position map. -/
theorem scanClue_wrong_nodup (st : GuessScan) (cl : LetterClue)
    (h : NodupKeys st.constraints.wrongPositions) :
    NodupKeys (scanClue st cl).constraints.wrongPositions := by
  rcases hcl : cl.clue <;> simp [scanClue, addWrongPosition, hcl]
  · exact h
  · exact nodupKeys_mapSet _ _ h
  · exact h

/-- The first pass preserves distinctness of the keys of the wrong-position
map. -/
theorem scanFold_wrong_nodup (clues : List LetterClue) (st : GuessScan)
    (h : NodupKeys st.constraints.wrongPositions) :
    NodupKeys (clues.foldl scanClue st).constraints.wrongPositions := by
  induction clues generalizing st with
  | nil => exact h
  | cons cl rest ih =>
    rw [List.foldl_cons]
    exact ih (scanClue st cl) (scanClue_wrong_nodup st cl h)

/-- A single clue of the first pass preserves distinctness of the keys of
the per-guess letter-count map. -/
theorem scanClue_counts_nodup (st : GuessScan) (cl : LetterClue)
    (h : NodupKeys st.letterCounts) :
    NodupKeys (scanClue st cl).letterCounts := by
  rcases hcl : cl.clue <;> simp [scanClue, addWrongPosition, hcl]
  · exact nodupKeys_mapSet _ _ h
  · exact nodupKeys_mapSet _ _ h
  · exact h

/-- The first pass preserves distinctness of the keys of the per-guess
letter-count map. -/
theorem scanFold_counts_nodup (clues : List LetterClue) (st : GuessScan)
    (h : NodupKeys st.letterCounts) :
    NodupKeys (clues.foldl scanClue st).letterCounts := by
  induction clues generalizing st with
  | nil => exact h
  | cons cl rest ih =>
    rw [List.foldl_cons]
    exact ih (scanClue st cl) (scanClue_counts_nodup st cl h)

/-- A single clue keeps all per-guess letter counts at least 1. -/
theorem scanClue_counts_pos (st : GuessScan) (cl : LetterClue)
    (h : ∀ e ∈ st.letterCounts, 1 ≤ e.2) :
    ∀ e ∈ (scanClue st cl).letterCounts, 1 ≤ e.2 := by
  intro e he
  rcases hcl : cl.clue <;> simp only [scanClue, addWrongPosition, hcl] at he <;>
    simp only [reduceCtorEq, or_false, false_or, or_true, true_or, if_true, if_false,
      reduceIte] at he
  · rcases mem_mapSet he with h' | h'
    · exact h e h'
    · simp [h']
  · rcases mem_mapSet he with h' | h'
    · exact h e h'
    · simp [h']
  · exact h e he

/-- All values in the per-guess letter-count map are at least 1. -/
theorem scanFold_counts_pos (clues : List LetterClue) (st : GuessScan)
    (h : ∀ e ∈ st.letterCounts, 1 ≤ e.2) :
    ∀ e ∈ (clues.foldl scanClue st).letterCounts, 1 ≤ e.2 := by
  induction clues generalizing st with
  | nil => exact h
  | cons cl rest ih =>
    rw [List.foldl_cons]
    exact ih (scanClue st cl) (scanClue_counts_pos st cl h)

/-- Lookup in the per-guess letter-count map after one clue. -/
theorem scanClue_counts_lookD (st : GuessScan) (cl : LetterClue) (L : Char) :
    lookD (scanClue st cl).letterCounts L
      = lookD st.letterCounts L +
          (if cl.letter = L ∧ (cl.clue = ClueType.correct ∨ cl.clue = ClueType.present)
            then 1 else 0) := by
  rcases hcl : cl.clue <;> simp only [scanClue, hcl] <;>
    simp only [reduceCtorEq, or_false, false_or, or_true, true_or, if_true, if_false,
      reduceIte]
  · by_cases hL : cl.letter = L
    · subst hL
      rw [lookD_mapSet_self]
      simp [lookD]
    · rw [lookD_mapSet_ne _ _ _ _ (Ne.symm hL)]
      simp [hL]
  · by_cases hL : cl.letter = L
    · subst hL
      rw [lookD_mapSet_self]
      simp [lookD]
    · rw [lookD_mapSet_ne _ _ _ _ (Ne.symm hL)]
      simp [hL]
  · simp

/-- Lookup in the per-guess letter-count map after the first pass counts the
correct-or-present clues for the letter. -/
theorem scanFold_counts_lookD (clues : List LetterClue) (st : GuessScan) (L : Char) :
    lookD (clues.foldl scanClue st).letterCounts L
      = lookD st.letterCounts L + cluesCount clues L := by
  induction clues generalizing st with
  | nil => simp [cluesCount]
  | cons cl rest ih =>
    rw [List.foldl_cons, ih, scanClue_counts_lookD]
    have hcount : cluesCount (cl :: rest) L
        = (if cl.letter = L ∧ (cl.clue = ClueType.correct ∨ cl.clue = ClueType.present)
            then 1 else 0) + cluesCount rest L := by
      simp only [cluesCount, List.countP_cons]
      by_cases h : cl.letter = L ∧ (cl.clue = ClueType.correct ∨ cl.clue = ClueType.present)
      · rcases h.2 with hc | hc <;> simp [h.1, hc] <;> omega
      · push_neg at h
        by_cases hl : cl.letter = L
        · have := h hl
          rcases hcl : cl.clue with _ | _ | _ <;> simp_all
        · simp [hl]
    rw [hcount]
    omega

theorem lookD_cons_self {rest : List (Char × Nat)} (k : Char) (v : Nat) :
    lookD ((k, v) :: rest) k = v := by
  simp [lookD, mapGet]

theorem lookD_cons_ne {rest : List (Char × Nat)} (k : Char) (v : Nat) {L : Char}
    (h : L ≠ k) : lookD ((k, v) :: rest) L = lookD rest L := by
  simp [lookD, mapGet, Ne.symm h]

/-- One step of the absent-letter resolution never touches the correct,
present, wrong or min components. -/
theorem resolveOne_preserves (lc : List (Char × Nat)) (c : WordConstraints)
    (a : Char) :
    (resolveOne lc c a).correctPositions = c.correctPositions ∧
      (resolveOne lc c a).presentLetters = c.presentLetters ∧
      (resolveOne lc c a).wrongPositions = c.wrongPositions ∧
      (resolveOne lc c a).minLetterCount = c.minLetterCount := by
  rcases hget : mapGet lc a with _ | cnt <;> simp [resolveOne, hget]

/-- Absent-letter resolution never touches the correct, present, wrong or
min components of the constraints. -/
theorem resolveAbsent_preserves (c : WordConstraints) (lc : List (Char × Nat))
    (abs : List Char) :
    (resolveAbsent c lc abs).correctPositions = c.correctPositions ∧
      (resolveAbsent c lc abs).presentLetters = c.presentLetters ∧
      (resolveAbsent c lc abs).wrongPositions = c.wrongPositions ∧
      (resolveAbsent c lc abs).minLetterCount = c.minLetterCount := by
  induction abs generalizing c with
  | nil => exact ⟨rfl, rfl, rfl, rfl⟩
  | cons a rest ih =>
    have hc : resolveAbsent c lc (a :: rest) = resolveAbsent (resolveOne lc c a) lc rest := by
      simp [resolveAbsent]
    rw [hc]
    obtain ⟨h1, h2, h3, h4⟩ := ih (resolveOne lc c a)
    obtain ⟨g1, g2, g3, g4⟩ := resolveOne_preserves lc c a
    exact ⟨h1.trans g1, h2.trans g2, h3.trans g3, h4.trans g4⟩

/-- Lookup in the exact-count map after absent-letter resolution: a letter
absent in the guess that also has a per-guess count receives exactly that
count; all other letters keep their previous entry. -/
theorem resolveAbsent_exact_lookup (c : WordConstraints) (lc : List (Char × Nat))
    (abs : List Char) (L : Char) :
    mapGet (resolveAbsent c lc abs).exactLetterCounts L
      = if L ∈ abs ∧ (mapGet lc L).isSome then mapGet lc L
        else mapGet c.exactLetterCounts L := by
  induction abs generalizing c with
  | nil => simp [resolveAbsent]
  | cons a rest ih =>
    have hc : resolveAbsent c lc (a :: rest) = resolveAbsent (resolveOne lc c a) lc rest := by
      simp [resolveAbsent]
    rw [hc, ih]
    by_cases hL : L = a
    · subst hL
      rcases hget : mapGet lc L with _ | cnt
      · by_cases hr : L ∈ rest <;>
          simp [List.mem_cons, hr, hget, resolveOne]
      · by_cases hr : L ∈ rest <;>
          simp [List.mem_cons, hr, hget, resolveOne, mapGet_mapSet_self]
    · have hone : mapGet (resolveOne lc c a).exactLetterCounts L
          = mapGet c.exactLetterCounts L := by
        rcases hget : mapGet lc a with _ | cnt
        · simp [resolveOne, hget]
        · simp [resolveOne, hget, mapGet_mapSet_ne _ _ _ _ hL]
      rw [hone]
      by_cases hr : L ∈ rest <;> by_cases hs : (mapGet lc L).isSome <;>
        simp [List.mem_cons, hL, hr, hs]

/-- Membership in the global absent set after absent-letter resolution: a
letter joins exactly when it was absent in the guess with no per-guess
count. -/
theorem resolveAbsent_absent_mem (c : WordConstraints) (lc : List (Char × Nat))
    (abs : List Char) (L : Char) :
    L ∈ (resolveAbsent c lc abs).absentLetters
      ↔ L ∈ c.absentLetters ∨ (L ∈ abs ∧ mapGet lc L = none) := by
  induction abs generalizing c with
  | nil => simp [resolveAbsent]
  | cons a rest ih =>
    have hc : resolveAbsent c lc (a :: rest) = resolveAbsent (resolveOne lc c a) lc rest := by
      simp [resolveAbsent]
    rw [hc, ih]
    by_cases hL : L = a
    · subst hL
      rcases hget : mapGet lc L with _ | cnt
      · simp only [resolveOne, hget, mem_setAdd_iff, List.mem_cons]
        simp [hget]
      · simp only [resolveOne, hget, List.mem_cons]
        simp [hget]
    · have hone : (L ∈ (resolveOne lc c a).absentLetters ↔ L ∈ c.absentLetters) := by
        rcases hget : mapGet lc a with _ | cnt
        · simp [resolveOne, hget, mem_setAdd_iff, hL]
        · simp [resolveOne, hget]
      rw [hone]
      simp [List.mem_cons, hL]

/-- maxStep never decreases a lookup. -/
theorem maxStep_lookD_mono (acc : List (Char × Nat)) (e : Char × Nat) (L : Char) :
    lookD acc L ≤ lookD (maxStep acc e) L := by
  by_cases hgt : e.2 > (mapGet acc e.1).getD 0
  · by_cases hL : L = e.1
    · subst hL
      simp only [maxStep, hgt, if_true, reduceIte, lookD_mapSet_self]
      simpa [lookD] using le_of_lt hgt
    · simp [maxStep, hgt, lookD_mapSet_ne _ _ _ _ hL]
  · simp [maxStep, hgt]

/-- updateMaxCounts never decreases a lookup. -/
theorem updateMaxCounts_lookD_mono (mm lc : List (Char × Nat)) (L : Char) :
    lookD mm L ≤ lookD (updateMaxCounts mm lc) L := by
  induction lc generalizing mm with
  | nil => simp [updateMaxCounts]
  | cons e rest ih =>
    simp only [updateMaxCounts, List.foldl_cons] at *
    exact le_trans (maxStep_lookD_mono mm e L) (ih (maxStep mm e))

/-- updateMaxCounts keeps every existing key. -/
theorem updateMaxCounts_isSome (mm lc : List (Char × Nat)) (L : Char)
    (h : (mapGet mm L).isSome) : (mapGet (updateMaxCounts mm lc) L).isSome := by
  induction lc generalizing mm with
  | nil => simpa [updateMaxCounts]
  | cons e rest ih =>
    simp only [updateMaxCounts, List.foldl_cons] at *
    refine ih (maxStep mm e) ?_
    by_cases hgt : e.2 > (mapGet mm e.1).getD 0
    · simp only [maxStep, hgt, if_true, reduceIte]
      exact mapGet_isSome_mapSet _ _ _ _ h
    · simpa [maxStep, hgt] using h

/-- updateMaxCounts preserves distinctness of keys. -/
theorem updateMaxCounts_nodup (mm lc : List (Char × Nat))
    (h : NodupKeys mm) : NodupKeys (updateMaxCounts mm lc) := by
  induction lc generalizing mm with
  | nil => simpa [updateMaxCounts]
  | cons e rest ih =>
    simp only [updateMaxCounts, List.foldl_cons] at *
    refine ih (maxStep mm e) ?_
    by_cases hgt : e.2 > (mapGet mm e.1).getD 0
    · simp only [maxStep, hgt, if_true, reduceIte]
      exact nodupKeys_mapSet _ _ h
    · simpa [maxStep, hgt] using h

/-- With distinct keys in the per-guess count map, updateMaxCounts computes
the pointwise maximum. -/
theorem updateMaxCounts_lookD (mm lc : List (Char × Nat)) (L : Char)
    (hn : NodupKeys lc) :
    lookD (updateMaxCounts mm lc) L = max (lookD mm L) (lookD lc L) := by
  induction lc generalizing mm with
  | nil =>
    simp only [updateMaxCounts, List.foldl_nil]
    have : lookD ([] : List (Char × Nat)) L = 0 := by simp [lookD, mapGet]
    omega
  | cons e rest ih =>
    simp only [NodupKeys, List.map_cons, List.nodup_cons] at hn
    simp only [updateMaxCounts, List.foldl_cons]
    have ih' := ih (maxStep mm e) hn.2
    simp only [updateMaxCounts] at ih'
    rw [ih']
    rcases e with ⟨k, v⟩
    have hstep : lookD (maxStep mm (k, v)) k = max (lookD mm k) v := by
      by_cases hgt : v > (mapGet mm k).getD 0
      · simp only [maxStep, hgt, if_true, reduceIte, lookD_mapSet_self]
        have : lookD mm k ≤ v := le_of_lt hgt
        omega
      · simp only [maxStep, hgt, if_false, reduceIte]
        simp only [lookD] at *
        omega
    by_cases hL : L = k
    · subst hL
      have hrest : lookD rest L = 0 := by
        simp [lookD, mapGet_eq_none_of_not_mem_keys hn.1]
      rw [hstep, hrest, lookD_cons_self]
      omega
    · have h1 : lookD (maxStep mm (k, v)) L = lookD mm L := by
        by_cases hgt : v > (mapGet mm k).getD 0
        · simp [maxStep, hgt, lookD_mapSet_ne _ _ _ _ hL]
        · simp [maxStep, hgt]
      rw [h1, lookD_cons_ne _ _ hL]

/-- Setting a fresh key appends the entry. -/
theorem mapSet_eq_append {κ α : Type} [DecidableEq κ]
    {m : List (κ × α)} {k : κ} (v : α) (h : mapGet m k = none) :
    mapSet m k v = m ++ [(k, v)] := by
  induction m with
  | nil => simp [mapSet]
  | cons e rest ih =>
    by_cases he : e.1 = k
    · rw [mapGet, if_pos he] at h
      exact absurd h (by simp)
    · rw [mapGet, if_neg he] at h
      simp [mapSet, he, ih h]

theorem mapGet_append_of_none {κ α : Type} [DecidableEq κ]
    {m m' : List (κ × α)} {k : κ} (h : mapGet m k = none) :
    mapGet (m ++ m') k = mapGet m' k := by
  induction m with
  | nil => simp
  | cons e rest ih =>
    by_cases he : e.1 = k
    · rw [mapGet, if_pos he] at h
      exact absurd h (by simp)
    · rw [mapGet, if_neg he] at h
      rw [List.cons_append, mapGet, if_neg he]
      exact ih h

/-- Copying a map with distinct keys entry by entry into a disjoint
accumulator appends it. -/
theorem transfer_eq_append {κ : Type} [DecidableEq κ]
    (mm acc : List (κ × Nat)) (hn : NodupKeys mm)
    (hd : ∀ k ∈ mm.map Prod.fst, mapGet acc k = none) :
    mm.foldl (fun acc e => mapSet acc e.1 e.2) acc = acc ++ mm := by
  induction mm generalizing acc with
  | nil => simp
  | cons e rest ih =>
    simp only [NodupKeys, List.map_cons, List.nodup_cons] at hn
    rw [List.foldl_cons]
    have hnone : mapGet acc e.1 = none := hd e.1 (by simp)
    rw [mapSet_eq_append e.2 hnone]
    have hd' : ∀ k ∈ rest.map Prod.fst, mapGet (acc ++ [(e.1, e.2)]) k = none := by
      intro k hk
      have hke : e.1 ≠ k := fun h => hn.1 (h ▸ hk)
      rw [mapGet_append_of_none (hd k (List.mem_cons_of_mem _ hk))]
      simp [mapGet, hke]
    rw [ih (acc ++ [(e.1, e.2)]) hn.2 hd']
    simp

/-- Copying a map with distinct keys into the empty map reproduces it. -/
theorem transfer_eq_self {κ : Type} [DecidableEq κ]
    (mm : List (κ × Nat)) (hn : NodupKeys mm) :
    mm.foldl (fun acc e => mapSet acc e.1 e.2) [] = mm := by
  simpa using transfer_eq_append mm [] hn (by simp [mapGet])

/-- processGuess never puts anything into the constraints' minLetterCount
component. -/
theorem processGuess_min (st : WordConstraints × List (Char × Nat))
    (g : GuessResult) : (processGuess st g).1.minLetterCount = st.1.minLetterCount := by
  unfold processGuess
  refine ((resolveAbsent_preserves _ _ _).2.2.2).trans ?_
  exact (scanFold_preserves g.clues _).2.2

/-- processGuess preserves distinctness of the keys of the maxMinCounts
map. -/
theorem processGuess_mm_nodup (st : WordConstraints × List (Char × Nat))
    (g : GuessResult) (h : NodupKeys st.2) : NodupKeys (processGuess st g).2 :=
  updateMaxCounts_nodup _ _ h

/-- processGuess preserves distinctness of the keys of the wrong-position
map. -/
theorem processGuess_wrong_nodup (st : WordConstraints × List (Char × Nat))
    (g : GuessResult) (h : NodupKeys st.1.wrongPositions) :
    NodupKeys (processGuess st g).1.wrongPositions := by
  unfold processGuess
  rw [(resolveAbsent_preserves _ _ _).2.2.1]
  exact scanFold_wrong_nodup g.clues _ h

/-- processGuess only grows the present-letter set. -/
theorem processGuess_present_mono (st : WordConstraints × List (Char × Nat))
    (g : GuessResult) {l : Char} (h : l ∈ st.1.presentLetters) :
    l ∈ (processGuess st g).1.presentLetters := by
  unfold processGuess
  rw [(resolveAbsent_preserves _ _ _).2.1]
  exact scanFold_present_mono g.clues _ h

/-- processGuess only grows the absent-letter set. -/
theorem processGuess_absent_mono (st : WordConstraints × List (Char × Nat))
    (g : GuessResult) {l : Char} (h : l ∈ st.1.absentLetters) :
    l ∈ (processGuess st g).1.absentLetters := by
  unfold processGuess
  rw [resolveAbsent_absent_mem]
  left
  rw [(scanFold_preserves g.clues _).1]
  exact h

/-- processGuess only grows the recorded wrong positions. -/
theorem processGuess_wrongMem_mono (st : WordConstraints × List (Char × Nat))
    (g : GuessResult) {L : Char} {p : Nat} (h : wrongMem st.1 L p) :
    wrongMem (processGuess st g).1 L p := by
  unfold processGuess
  unfold wrongMem
  rw [(resolveAbsent_preserves _ _ _).2.2.1]
  exact scanFold_wrongMem_mono g.clues _ h

/-- processGuess never decreases a maxMinCounts lookup. -/
theorem processGuess_mm_mono (st : WordConstraints × List (Char × Nat))
    (g : GuessResult) (L : Char) : lookD st.2 L ≤ lookD (processGuess st g).2 L :=
  updateMaxCounts_lookD_mono _ _ _

/-- Lookup in the maxMinCounts map after one guess. -/
theorem processGuess_mm_lookD (st : WordConstraints × List (Char × Nat))
    (g : GuessResult) (L : Char) :
    lookD (processGuess st g).2 L = max (lookD st.2 L) (cluesCount g.clues L) := by
  unfold processGuess
  have hnodup : NodupKeys (g.clues.foldl scanClue
      { constraints := st.1, letterCounts := [], absentInGuess := [] }).letterCounts := by
    refine scanFold_counts_nodup g.clues _ ?_
    simp [NodupKeys]
  rw [updateMaxCounts_lookD _ _ _ hnodup, scanFold_counts_lookD]
  have : lookD ([] : List (Char × Nat)) L = 0 := by simp [lookD, mapGet]
  rw [this]
  omega

/-- The constraint component of the guess fold keeps an empty
minLetterCount. -/
theorem foldPG_min_nil (gs : List GuessResult)
    (st : WordConstraints × List (Char × Nat)) :
    (gs.foldl processGuess st).1.minLetterCount = st.1.minLetterCount := by
  induction gs generalizing st with
  | nil => rfl
  | cons g rest ih => rw [List.foldl_cons, ih, processGuess_min]

/-- The guess fold preserves distinctness of maxMinCounts keys. -/
theorem foldPG_mm_nodup (gs : List GuessResult)
    (st : WordConstraints × List (Char × Nat)) (h : NodupKeys st.2) :
    NodupKeys (gs.foldl processGuess st).2 := by
  induction gs generalizing st with
  | nil => exact h
  | cons g rest ih => exact ih _ (processGuess_mm_nodup st g h)

/-- The guess fold preserves distinctness of wrong-position keys. -/
theorem foldPG_wrong_nodup (gs : List GuessResult)
    (st : WordConstraints × List (Char × Nat)) (h : NodupKeys st.1.wrongPositions) :
    NodupKeys (gs.foldl processGuess st).1.wrongPositions := by
  induction gs generalizing st with
  | nil => exact h
  | cons g rest ih => exact ih _ (processGuess_wrong_nodup st g h)

/-- Lookup in the maxMinCounts map after the guess fold: the pointwise
maximum of the starting value and the per-guess counts. -/
theorem foldPG_mm_lookD (gs : List GuessResult)
    (st : WordConstraints × List (Char × Nat)) (L : Char) :
    lookD (gs.foldl processGuess st).2 L
      = max (lookD st.2 L) (specMinLetterCount gs L) := by
  induction gs generalizing st with
  | nil => simp [specMinLetterCount]
  | cons g rest ih =>
    rw [List.foldl_cons, ih, processGuess_mm_lookD]
    have : specMinLetterCount (g :: rest) L
        = max (cluesCount g.clues L) (specMinLetterCount rest L) := by
      simp [specMinLetterCount]
    rw [this]
    omega

/-- The minLetterCount map built by buildConstraints is the maxMinCounts map
of the guess fold. -/
theorem buildConstraints_min_eq (gs : List GuessResult) :
    (buildConstraints gs).minLetterCount
      = (gs.foldl processGuess (emptyConstraints, [])).2 := by
  unfold buildConstraints
  have h1 : (gs.foldl processGuess (emptyConstraints, [])).1.minLetterCount = [] := by
    rw [foldPG_min_nil]
    rfl
  have h2 : NodupKeys (gs.foldl processGuess (emptyConstraints, [])).2 := by
    refine foldPG_mm_nodup gs _ ?_
    simp [NodupKeys]
  simp only [h1]
  exact transfer_eq_self _ h2

/-- C6: for every guess history and letter, the minLetterCount entry built
by buildConstraints is the maximum, over all guesses, of the per-guess count
of correct-or-present clues for that letter (a missing entry reads as 0). -/
theorem buildConstraints_minLetterCount_is_max (gs : List GuessResult) (L : Char) :
    lookD (buildConstraints gs).minLetterCount L = specMinLetterCount gs L := by
  rw [buildConstraints_min_eq, foldPG_mm_lookD]
  have : lookD (emptyConstraints, ([] : List (Char × Nat))).2 L = 0 := by
    simp [lookD, mapGet]
  rw [this]
  omega

/-- C1 counterexample: constraints built from the history
["azzzz" all absent, then "aazzz" with a green a and a gray a] put the
letter a both in exactLetterCounts (with exact count 1) and in
absentLetters, so the word "abcde" — which contains exactly one a — is
still rejected by the absentLetters check for a: the exact count does not
override that check. -/
theorem exactCount_override_counterexample :
    mapGet (buildConstraints [gAPureAbsent, gAExactOne]).exactLetterCounts 'a' = some 1 ∧
      (['a', 'b', 'c', 'd', 'e'] : Word).count 'a' = 1 ∧
      absentCheckFor (buildConstraints [gAPureAbsent, gAExactOne])
        ['a', 'b', 'c', 'd', 'e'] 'a' = false := by
  decide

/-- C1 (amended): for constraints built from a single guess, a letter with
an entry in exactLetterCounts is rejected neither by the minLetterCount
check nor by the absentLetters check for that letter, on any word containing
exactly the exact count of that letter. (Across histories whose guesses
contradict each other the original claim fails, see the counterexample.) -/
theorem exactCount_overrides_single_guess (g : GuessResult) (L : Char) (k : Nat)
    (w : Word)
    (hx : mapGet (buildConstraints [g]).exactLetterCounts L = some k)
    (hw : w.count L = k) :
    minCheckFor (buildConstraints [g]) w L = true ∧
      absentCheckFor (buildConstraints [g]) w L = true := by
  have hscan := scanFold_preserves g.clues
    { constraints := emptyConstraints, letterCounts := [], absentInGuess := [] }
  set scanS := g.clues.foldl scanClue
    { constraints := emptyConstraints, letterCounts := [], absentInGuess := [] } with hscanS
  have hexact_eq : (buildConstraints [g]).exactLetterCounts
      = (resolveAbsent scanS.constraints scanS.letterCounts scanS.absentInGuess).exactLetterCounts := rfl
  rw [hexact_eq, resolveAbsent_exact_lookup] at hx
  have hscan_exact : scanS.constraints.exactLetterCounts = [] := hscan.2.1
  have hlc : mapGet scanS.letterCounts L = some k := by
    by_cases hcond : L ∈ scanS.absentInGuess ∧ (mapGet scanS.letterCounts L).isSome
    · rwa [if_pos hcond] at hx
    · rw [if_neg hcond, hscan_exact] at hx
      exact absurd hx (by simp [mapGet])
  have hpos : 1 ≤ k := by
    have hmem := mem_of_mapGet_eq_some hlc
    have := scanFold_counts_pos g.clues
      { constraints := emptyConstraints, letterCounts := [], absentInGuess := [] }
      (by simp) (L, k) hmem
    simpa using this
  have habs : L ∉ (buildConstraints [g]).absentLetters := by
    have habs_eq : (buildConstraints [g]).absentLetters
        = (resolveAbsent scanS.constraints scanS.letterCounts scanS.absentInGuess).absentLetters := rfl
    rw [habs_eq, resolveAbsent_absent_mem]
    have hscan_abs : scanS.constraints.absentLetters = [] := hscan.1
    rw [hscan_abs, hlc]
    simp
  constructor
  · have hmin_eq : (buildConstraints [g]).minLetterCount
        = updateMaxCounts [] scanS.letterCounts := by
      rw [buildConstraints_min_eq]
      rfl
    have hnodup : NodupKeys scanS.letterCounts := by
      refine scanFold_counts_nodup g.clues _ ?_
      simp [NodupKeys]
    have hlk : lookD (updateMaxCounts [] scanS.letterCounts) L = k := by
      rw [updateMaxCounts_lookD _ _ _ hnodup]
      have h0 : lookD ([] : List (Char × Nat)) L = 0 := by simp [lookD, mapGet]
      have hv : lookD scanS.letterCounts L = k := by simp [lookD, hlc]
      rw [h0, hv]
      omega
    rcases hm : mapGet (buildConstraints [g]).minLetterCount L with _ | m
    · simp [minCheckFor, hm]
    · have hmk : m = k := by
        have : lookD (buildConstraints [g]).minLetterCount L = k := by
          rw [hmin_eq] at *
          exact hlk
        simpa [lookD, hm] using this
      have hc : (mapGet (countsOf w) L).getD 0 = k := by
        have hcw := lookD_countsOf w L
        simp only [lookD] at hcw
        rw [hcw, hw]
      simp [minCheckFor, hm, hc, hmk]
  · simp [absentCheckFor, habs]

/-- Witness for the amended C1 on the spec's "sassy vs lasso" guess: the
exact count of s is 2 and the word "souse" (two s's) passes both per-letter
checks. -/
theorem exactCount_overrides_single_guess_witness :
    mapGet (buildConstraints [gSassyLasso]).exactLetterCounts 's' = some 2 ∧
      (['s', 'o', 'u', 's', 'e'] : Word).count 's' = 2 ∧
      (minCheckFor (buildConstraints [gSassyLasso]) ['s', 'o', 'u', 's', 'e'] 's' = true ∧
        absentCheckFor (buildConstraints [gSassyLasso]) ['s', 'o', 'u', 's', 'e'] 's' = true) :=
  ⟨by decide, by decide,
    exactCount_overrides_single_guess gSassyLasso 's' 2 ['s', 'o', 'u', 's', 'e']
      (by decide) (by decide)⟩

/-- A word matching a refining constraint set matches the refined one. -/
theorem matches_of_refines {old new : WordConstraints} (R : Refines old new)
    {w : Word} (h : matchesConstraints w new = true) :
    matchesConstraints w old = true := by
  obtain ⟨Rc, Rp, Ra, Rw, Rm, Rx⟩ := R
  simp only [matchesConstraints, Bool.and_eq_true, List.all_eq_true] at h ⊢
  obtain ⟨⟨⟨⟨h1, h2⟩, h3⟩, h4⟩, h5, h6⟩ := h
  refine ⟨⟨⟨⟨?_, ?_⟩, ?_⟩, ?_⟩, ?_, ?_⟩
  · intro e he
    exact h1 (e.1, e.2) (mem_of_mapGet_eq_some (Rc e he))
  · intro l hl
    exact h2 l (Rp l hl)
  · intro l hl
    exact h3 l (Ra l hl)
  · intro e he p hp
    obtain ⟨ps, hg, hp'⟩ := Rw e he p hp
    exact h4 (e.1, ps) (mem_of_mapGet_eq_some hg) p hp'
  · intro e he
    obtain ⟨m, hg, hle⟩ := Rm e he
    have := h5 (e.1, m) (mem_of_mapGet_eq_some hg)
    simp only [decide_eq_true_eq, ge_iff_le] at this ⊢
    omega
  · intro e he
    exact h6 (e.1, e.2) (mem_of_mapGet_eq_some (Rx e he))

/-- Appending a guess to a history refines the built constraints, provided
the new guess does not reassign an already-recorded correct position to a
different letter nor an already-recorded exact count to a different value
(the two components JavaScript `Map.set` can overwrite). -/
theorem refines_append (hist : List GuessResult) (g : GuessResult)
    (hcorr : ∀ e ∈ (buildConstraints hist).correctPositions,
      mapGet (buildConstraints (hist ++ [g])).correctPositions e.1 = some e.2)
    (hexact : ∀ e ∈ (buildConstraints hist).exactLetterCounts,
      mapGet (buildConstraints (hist ++ [g])).exactLetterCounts e.1 = some e.2) :
    Refines (buildConstraints hist) (buildConstraints (hist ++ [g])) := by
  have hsplit : (hist ++ [g]).foldl processGuess (emptyConstraints, [])
      = processGuess (hist.foldl processGuess (emptyConstraints, [])) g := by
    rw [List.foldl_append, List.foldl_cons, List.foldl_nil]
  have hminold : (buildConstraints hist).minLetterCount
      = (hist.foldl processGuess (emptyConstraints, [])).2 := buildConstraints_min_eq hist
  have hminnew : (buildConstraints (hist ++ [g])).minLetterCount
      = (processGuess (hist.foldl processGuess (emptyConstraints, [])) g).2 := by
    rw [buildConstraints_min_eq, hsplit]
  have hwrongnew : (buildConstraints (hist ++ [g])).wrongPositions
      = (processGuess (hist.foldl processGuess (emptyConstraints, [])) g).1.wrongPositions := by
    show ((hist ++ [g]).foldl processGuess (emptyConstraints, [])).1.wrongPositions = _
    rw [hsplit]
  have hpresnew : (buildConstraints (hist ++ [g])).presentLetters
      = (processGuess (hist.foldl processGuess (emptyConstraints, [])) g).1.presentLetters := by
    show ((hist ++ [g]).foldl processGuess (emptyConstraints, [])).1.presentLetters = _
    rw [hsplit]
  have habsnew : (buildConstraints (hist ++ [g])).absentLetters
      = (processGuess (hist.foldl processGuess (emptyConstraints, [])) g).1.absentLetters := by
    show ((hist ++ [g]).foldl processGuess (emptyConstraints, [])).1.absentLetters = _
    rw [hsplit]
  refine ⟨hcorr, ?_, ?_, ?_, ?_, hexact⟩
  · intro l hl
    rw [hpresnew]
    exact processGuess_present_mono _ g hl
  · intro l hl
    rw [habsnew]
    exact processGuess_absent_mono _ g hl
  · intro e he p hp
    have hnodup : NodupKeys (buildConstraints hist).wrongPositions := by
      exact foldPG_wrong_nodup hist (emptyConstraints, []) (by simp [NodupKeys, emptyConstraints])
    have hget : mapGet (buildConstraints hist).wrongPositions e.1 = some e.2 :=
      mapGet_eq_some_of_mem hnodup he
    have hwm : wrongMem (buildConstraints hist) e.1 p := by
      unfold wrongMem
      rw [hget]
      simpa using hp
    have hwm' : wrongMem (processGuess (hist.foldl processGuess (emptyConstraints, [])) g).1 e.1 p :=
      processGuess_wrongMem_mono _ g hwm
    unfold wrongMem at hwm'
    rcases hm : mapGet (processGuess (hist.foldl processGuess (emptyConstraints, [])) g).1.wrongPositions e.1
      with _ | ps
    · rw [hm] at hwm'
      simp at hwm'
    · rw [hm] at hwm'
      refine ⟨ps, ?_, by simpa using hwm'⟩
      rw [hwrongnew, hm]
  · intro e he
    have hnodup : NodupKeys (hist.foldl processGuess (emptyConstraints, [])).2 :=
      foldPG_mm_nodup hist _ (by simp [NodupKeys])
    rw [hminold] at he
    have hget : mapGet (hist.foldl processGuess (emptyConstraints, [])).2 e.1 = some e.2 :=
      mapGet_eq_some_of_mem hnodup he
    have hsome : (mapGet (processGuess (hist.foldl processGuess (emptyConstraints, [])) g).2 e.1).isSome := by
      exact updateMaxCounts_isSome _ _ _ (by simp [hget])
    rcases hm : mapGet (buildConstraints (hist ++ [g])).minLetterCount e.1 with _ | m
    · rw [hminnew] at hm
      rw [hm] at hsome
      simp at hsome
    · refine ⟨m, rfl, ?_⟩
      have h1 : lookD (hist.foldl processGuess (emptyConstraints, [])).2 e.1 = e.2 := by
        simp [lookD, hget]
      have h2 : lookD (processGuess (hist.foldl processGuess (emptyConstraints, [])) g).2 e.1 = m := by
        rw [← hminnew]
        simp [lookD, hm]
      have := processGuess_mm_mono (hist.foldl processGuess (emptyConstraints, [])) g e.1
      omega

/-- C2 counterexample: filtering is not monotone under appending a guess.
First instance: after a green a at position 0, a later (contradictory) green
b at position 0 overwrites the correct-position entry, and "bacde" passes
the extended history's filter while failing the original one. Second
instance: a later guess overwrites an exact count of 1 for a with 2, and
"aabcd" passes the extended history's filter while failing the original
one. -/
theorem filterWords_guess_monotone_counterexample :
    (['b', 'a', 'c', 'd', 'e'] ∈ filterWords [['b', 'a', 'c', 'd', 'e']]
        (buildConstraints ([gAGreen0] ++ [gBGreen0])) ∧
      ['b', 'a', 'c', 'd', 'e'] ∉ filterWords [['b', 'a', 'c', 'd', 'e']]
        (buildConstraints [gAGreen0])) ∧
    (['a', 'a', 'b', 'c', 'd'] ∈ filterWords [['a', 'a', 'b', 'c', 'd']]
        (buildConstraints ([gAExactOne] ++ [gAExactTwo])) ∧
      ['a', 'a', 'b', 'c', 'd'] ∉ filterWords [['a', 'a', 'b', 'c', 'd']]
        (buildConstraints [gAExactOne])) := by
  decide

/-- C2 (amended): appending a guess never adds a word to the filtered
result, provided the appended guess does not reassign an existing
correct-position entry to a different letter nor an existing exact-count
entry to a different value. (Contradictory histories can overwrite those
two map entries and enlarge the filtered set, see the counterexample.) -/
theorem filterWords_guess_monotone (ws : List Word) (hist : List GuessResult)
    (g : GuessResult)
    (hcorr : ∀ e ∈ (buildConstraints hist).correctPositions,
      mapGet (buildConstraints (hist ++ [g])).correctPositions e.1 = some e.2)
    (hexact : ∀ e ∈ (buildConstraints hist).exactLetterCounts,
      mapGet (buildConstraints (hist ++ [g])).exactLetterCounts e.1 = some e.2) :
    filterWords ws (buildConstraints (hist ++ [g]))
      ⊆ filterWords ws (buildConstraints hist) := by
  intro w hw
  rw [filterWords, List.mem_filter] at hw ⊢
  exact ⟨hw.1, matches_of_refines (refines_append hist g hcorr hexact) hw.2⟩

/-- Witness for the amended C2: from the empty history, adding the
all-absent "crate" guess shrinks the filtered two-word list. -/
theorem filterWords_guess_monotone_witness :
    (∀ e ∈ (buildConstraints ([] : List GuessResult)).correctPositions,
        mapGet (buildConstraints (([] : List GuessResult) ++ [gCrateAbsent])).correctPositions e.1
          = some e.2) ∧
      (∀ e ∈ (buildConstraints ([] : List GuessResult)).exactLetterCounts,
        mapGet (buildConstraints (([] : List GuessResult) ++ [gCrateAbsent])).exactLetterCounts e.1
          = some e.2) ∧
      filterWords [wCrate, wMuggy] (buildConstraints (([] : List GuessResult) ++ [gCrateAbsent]))
        ⊆ filterWords [wCrate, wMuggy] (buildConstraints ([] : List GuessResult)) :=
  ⟨by decide, by decide,
    filterWords_guess_monotone [wCrate, wMuggy] [] gCrateAbsent (by decide) (by decide)⟩
